import Mathlib

/-!
# ZedWallet command dispatcher (`src/ZedWallet/Commands.cpp`)

A shallow embedding of the command registry, the availability filter, the
command resolver, the dispatcher and the listing presenter of the wallet shell,
followed by theorems about them.

Modelling conventions

* `std::string` is `String`; `std::vector<Command>` is `List Command`;
  `Maybe<Command>` is `Option Command`.
* `std::cout` is modelled by the list of lines written, each line being the list
  of items streamed before `std::endl`. The colour wrappers of `ColouredMsg.h`
  are kept as constructors of `Msg`.
* C++ exceptions are modelled by the error side of `Except`.
* `int` is `Int` with explicit 32-bit wrapping where the source does arithmetic
  or narrowing conversions on it.
* `WalletConfig::ticker` is declared outside this file and is a parameter.
* The external handlers (`exportKeys`, `transfer`, ...) are opaque collaborators;
  the branch of the routing chain that was taken is recorded as a `Handler`
  value, and what an external handler itself writes is not modelled.
-/

namespace ZedWallet

/-! ## Data model -/

/-- The `Command` record of `Commands.h`, fields in initializer order. -/
structure Command where
  name : String
  description : String
  viewWalletSupport : Bool
  advanced : Bool
  deriving DecidableEq, Repr

/-- One item streamed to `std::cout`. -/
inductive Msg where
  | text (s : String)
  | warningMsg (s : String)
  | informationMsg (s : String)
  | suggestionMsg (s : String)
  | successMsg (s : String)
  | successMsgPadded (s : String) (padding : Nat)
  deriving DecidableEq, Repr

/-- A line of output: the items streamed up to one `std::endl`. -/
abbrev Line := List Msg

/-- The two exceptions `std::stoi` can throw. -/
inductive StdException where
  | invalid_argument
  | out_of_range
  deriving DecidableEq, Repr

/-- Ways a call can end without returning: an exception that propagates to the
caller, or a read of `vector::operator[]` outside the vector (undefined
behaviour in the source, made observable here). -/
inductive Fault where
  | thrown (e : StdException)
  | outOfBoundsRead (index : Int)
  deriving DecidableEq, Repr

/-- The part of `WalletInfo` the dispatcher reads. -/
structure WalletInfo where
  viewWallet : Bool
  walletAddress : String
  deriving DecidableEq, Repr

/-- The handler branches of the routing chain of `dispatchCommand`, one per
branch other than "exit" and the final fallback, with the arguments the branch
fixes. `listCommands` is the function of this file; `address` is the branch
that prints the wallet address inline; the others are external calls. -/
inductive Handler where
  | exportKeys
  | listCommands (advanced : Bool)
  | status
  | balance (viewWallet : Bool)
  | address
  | listTransfers (incoming outgoing : Bool)
  | saveCSV
  | save
  | blockchainHeight
  | reset
  | transfer
  | fullOptimize
  | addToAddressBook
  | deleteFromAddressBook
  | listAddressBook
  | sendFromAddressBook
  | changePassword
  deriving DecidableEq, Repr

/-- What one call of `dispatchCommand` did: its return value, the lines it wrote
and the handlers it invoked. -/
structure DispatchResult where
  exit : Bool
  output : List Line
  handlers : List Handler
  deriving DecidableEq, Repr

/-! ## Library functions used by the source -/

def INT_MAX : Int := 2147483647

def INT_MIN : Int := -2147483648

/-- Reduction of an integer to the range of a 32-bit `int` (two's complement). -/
def wrapInt32 (z : Int) : Int :=
  (z + 2147483648) % 4294967296 - 2147483648

/-- The characters `isspace` accepts in the C locale. -/
def isSpace (c : Char) : Bool :=
  c = ' ' || c = '\t' || c = '\n' || c = '\x0b' || c = '\x0c' || c = '\r'

/-- One step of decimal accumulation: append the digit `c` to the value `acc`. -/
def digitStep (acc : Nat) (c : Char) : Nat :=
  10 * acc + (c.toNat - '0'.toNat)

/-- Value of a run of decimal digits, most significant first. -/
def digitsValue (ds : List Char) : Nat :=
  ds.foldl digitStep 0

/-- The optional sign in front of the digits, as `strtol` reads it. -/
def readSign : List Char → Bool × List Char
  | '-' :: r => (true, r)
  | '+' :: r => (false, r)
  | s => (false, s)

/-- The function `std::stoi(str)` with its default arguments (base 10, no `pos`):
skip leading white space, read an optional sign, read the longest run of
decimal digits and ignore whatever follows. No digit gives `invalid_argument`,
a value outside `int` gives `out_of_range`. -/
def stoi (str : String) : Except StdException Int :=
  let signed := readSign (str.toList.dropWhile isSpace)
  let digits := signed.2.takeWhile Char.isDigit
  if digits.isEmpty then
    .error .invalid_argument
  else
    let v : Int := if signed.1 then -(digitsValue digits : Int) else (digitsValue digits : Int)
    if v < INT_MIN || INT_MAX < v then .error .out_of_range else .ok v

/-- The function `std::to_string` on an integer: decimal digits, with a leading
minus sign for a negative value. -/
def to_string : Int → String
  | .ofNat n => Nat.repr n
  | .negSucc n => "-" ++ Nat.repr (n + 1)

/-- Lexicographic comparison of character sequences by character code. -/
def charsLess : List Char → List Char → Bool
  | [], [] => false
  | [], _ :: _ => true
  | _ :: _, [] => false
  | a :: as, b :: bs =>
    if a.toNat < b.toNat then true
    else if b.toNat < a.toNat then false
    else charsLess as bs

/-- The `operator<` of `std::string`. -/
def stringLess (a b : String) : Bool := charsLess a.toList b.toList

/-- Insertion of `x` into a list ordered by `less`, after the elements that are
not greater than it. -/
def orderedInsert (less : Command → Command → Bool) (x : Command) : List Command → List Command
  | [] => [x]
  | y :: ys => if less x y then x :: y :: ys else y :: orderedInsert less x ys

/-- The call `std::sort(begin, end, less)`, as an insertion sort. The comparator
used by the registry never ties two distinct entries, so the sorted order does
not depend on the algorithm. -/
def sort (less : Command → Command → Bool) : List Command → List Command
  | [] => []
  | x :: xs => orderedInsert less x (sort less xs)

/-! ## The functions of `Commands.cpp` -/

/-- Source lines 21-33: first command whose name equals `name`. -/
def contains (name : String) : List Command → Option Command
  | [] => none
  | command :: rest => if command.name = name then some command else contains name rest

/-- Source lines 35-44: `std::copy_if` into a fresh vector. -/
def filterCommands (commands : List Command) (predicate : Command → Bool) : List Command :=
  commands.filter predicate

/-- The comparator lambda of `allCommands` (source lines 265-276). -/
def commandLess (lhs rhs : Command) : Bool :=
  if lhs.advanced = rhs.advanced then stringLess lhs.name rhs.name
  else decide (lhs.advanced < rhs.advanced)

/-- The initializer list of `allCommands` (source lines 228-262). -/
def commandTable (ticker : String) : List Command :=
  [ ⟨"address", "Display your payment address", true, false⟩,
    ⟨"advanced", "List available advanced commands", true, false⟩,
    ⟨"balance", "Display how much " ++ ticker ++ " you have", true, false⟩,
    ⟨"exit", "Exit and save your wallet", true, false⟩,
    ⟨"export_keys", "Export your private keys", true, false⟩,
    ⟨"help", "List this help message", true, false⟩,
    ⟨"transfer", "Send " ++ ticker ++ " to someone", false, false⟩,
    ⟨"ab_add", "Add a person to your address book", true, true⟩,
    ⟨"ab_delete", "Delete a person from your address book", true, true⟩,
    ⟨"ab_list", "List everyone in your address book", true, true⟩,
    ⟨"ab_send", "Send " ++ ticker ++ " to someone in your address book", false, true⟩,
    ⟨"bc_height", "Show the blockchain height", true, true⟩,
    ⟨"change_password", "Change your wallet password", true, true⟩,
    ⟨"incoming_transfers", "Show incoming transfers", true, true⟩,
    ⟨"list_transfers", "Show all transfers", false, true⟩,
    ⟨"optimize", "Optimize your wallet to send large amounts", false, true⟩,
    ⟨"outgoing_transfers", "Show outgoing transfers", false, true⟩,
    ⟨"reset", "Recheck the chain from zero for transactions", true, true⟩,
    ⟨"save", "Save your wallet state", true, true⟩,
    ⟨"save_csv", "Save all wallet transactions to a CSV file", false, true⟩,
    ⟨"status", "Show the daemon status", true, true⟩ ]

/-- Source lines 224-279. -/
def allCommands (ticker : String) : List Command :=
  sort commandLess (commandTable ticker)

/-- Source lines 282-295. -/
def availableCommands (viewWallet : Bool) (commands : List Command) : List Command :=
  if !viewWallet then commands
  else filterCommands commands (fun c => c.viewWalletSupport)

/-- Source lines 297-303: `std::count_if` narrowed to `int`. -/
def numBasicCommands (commands : List Command) : Int :=
  wrapInt32 (commands.countP (fun c => !c.advanced))

/-- The loop of `listCommands` (source lines 318-328), threading `index`. -/
def listCommandsLoop (advanced : Bool) : Int → List Command → List Line
  | _, [] => []
  | index, command :: rest =>
    if command.advanced = advanced then
      [.text " ", .informationMsg (to_string index), .text "\t",
        .successMsgPadded command.name 25, .text command.description]
        :: listCommandsLoop advanced (wrapInt32 (index + 1)) rest
    else listCommandsLoop advanced index rest

/-- Source lines 305-329. -/
def listCommands (commands : List Command) (advanced : Bool) : List Line :=
  let index : Int := if advanced then wrapInt32 (numBasicCommands commands + 1) else 1
  listCommandsLoop advanced index commands

/-- The line written for a name that is not in the registry (source lines
213-216). -/
def unknownCommandLine (command : String) : Line :=
  [.text "Unknown command: ", .warningMsg command, .text ", use ",
    .suggestionMsg "help", .text " command to list all possible commands."]

/-- Source lines 203-221: the name lookup that ends `resolveCommand`. -/
def lookupCommand (command : String) (allCommands : List Command) : Option Command × List Line :=
  let maybeCommand := contains command allCommands
  if command = "" then (none, [])
  else if maybeCommand.isNone then (none, [unknownCommandLine command])
  else (maybeCommand, [])

/-- The line written for a numeric choice outside the available list (source
lines 186-191). -/
def badInputLine (available : List Command) : Line :=
  [.warningMsg "Bad input: Expected a command name, or number from ",
    .informationMsg "1", .warningMsg " to ",
    .informationMsg (to_string available.length)]

/-- Source lines 170-222. The result is the returned `Maybe<Command>` together
with the lines written. The `catch` clause handles `std::invalid_argument`
only, so any other exception of `std::stoi` propagates. -/
def resolveCommand (command : String) (allCommands available : List Command) :
    Except Fault (Option Command × List Line) :=
  match stoi command with
  | .ok parsed =>
    let index := wrapInt32 (parsed - 1)
    if index < 0 || index ≥ wrapInt32 available.length then
      .ok (none, [badInputLine available])
    else
      match available[index.toNat]? with
      | some c => .ok (lookupCommand c.name allCommands)
      | none => .error (.outOfBoundsRead index)
  | .error .invalid_argument => .ok (lookupCommand command allCommands)
  | .error e => .error (.thrown e)

/-- The line written by the mode gate (source lines 66-67). -/
def viewOnlyLine : Line :=
  [.warningMsg "This command is not available in a view only wallet..."]

/-- The routing chain of `dispatchCommand` (source lines 73-167) for the
canonical name `command`. -/
def routeCommand (walletInfo : WalletInfo) (available : List Command) (command : String) :
    DispatchResult :=
  if command = "export_keys" then ⟨false, [], [.exportKeys]⟩
  else if command = "help" then ⟨false, listCommands available false, [.listCommands false]⟩
  else if command = "advanced" then ⟨false, listCommands available true, [.listCommands true]⟩
  else if command = "status" then ⟨false, [], [.status]⟩
  else if command = "balance" then ⟨false, [], [.balance walletInfo.viewWallet]⟩
  else if command = "address" then
    ⟨false, [[.successMsg walletInfo.walletAddress]], [.address]⟩
  else if command = "incoming_transfers" then ⟨false, [], [.listTransfers true false]⟩
  else if command = "save_csv" then ⟨false, [], [.saveCSV]⟩
  else if command = "exit" then ⟨true, [], []⟩
  else if command = "save" then ⟨false, [], [.save]⟩
  else if command = "bc_height" then ⟨false, [], [.blockchainHeight]⟩
  else if command = "reset" then ⟨false, [], [.reset]⟩
  else if command = "outgoing_transfers" then ⟨false, [], [.listTransfers false true]⟩
  else if command = "list_transfers" then ⟨false, [], [.listTransfers true true]⟩
  else if command = "transfer" then ⟨false, [], [.transfer]⟩
  else if command = "optimize" then ⟨false, [], [.fullOptimize]⟩
  else if command = "ab_add" then ⟨false, [], [.addToAddressBook]⟩
  else if command = "ab_delete" then ⟨false, [], [.deleteFromAddressBook]⟩
  else if command = "ab_list" then ⟨false, [], [.listAddressBook]⟩
  else if command = "ab_send" then ⟨false, [], [.sendFromAddressBook]⟩
  else if command = "change_password" then ⟨false, [], [.changePassword]⟩
  else
    ⟨false, [[.warningMsg "Command was defined but not hooked up: ", .informationMsg command],
      [.informationMsg "Please report this bug!"]], []⟩

/-- Source lines 46-168. -/
def dispatchCommand (ticker : String) (walletInfo : WalletInfo) (command : String) :
    Except Fault DispatchResult :=
  let commands := allCommands ticker
  let available := availableCommands walletInfo.viewWallet commands
  match resolveCommand command commands available with
  | .error e => .error e
  | .ok (none, out) => .ok ⟨false, out, []⟩
  | .ok (some maybeCommand, out) =>
    let command := maybeCommand.name
    if walletInfo.viewWallet && !maybeCommand.viewWalletSupport then
      .ok ⟨false, out ++ [viewOnlyLine], []⟩
    else
      let r := routeCommand walletInfo available command
      .ok ⟨r.exit, out ++ r.output, r.handlers⟩

/-! ## Decimal printing and parsing -/

theorem digitChar_isDigit (m : Nat) (h : m < 10) : (Nat.digitChar m).isDigit = true := by
  interval_cases m <;> decide

theorem digitStep_digitChar (acc m : Nat) (h : m < 10) :
    digitStep acc (Nat.digitChar m) = 10 * acc + m := by
  unfold digitStep
  interval_cases m <;> rfl

theorem toDigitsCore_allDigits (fuel : Nat) : ∀ (n : Nat) (ds : List Char),
    (∀ c ∈ ds, c.isDigit = true) → ∀ c ∈ Nat.toDigitsCore 10 fuel n ds, c.isDigit = true := by
  induction fuel with
  | zero => intro n ds h; simpa [Nat.toDigitsCore] using h
  | succ fuel ih =>
    intro n ds h
    have hd : ∀ c ∈ Nat.digitChar (n % 10) :: ds, c.isDigit = true := by
      intro c hc
      rcases List.mem_cons.mp hc with rfl | hc
      · exact digitChar_isDigit _ (Nat.mod_lt _ (by decide))
      · exact h c hc
    simp only [Nat.toDigitsCore]
    split
    · exact hd
    · exact ih _ _ hd

theorem toDigitsCore_ne_nil (fuel : Nat) : ∀ (n : Nat) (ds : List Char),
    ds ≠ [] ∨ 0 < fuel → Nat.toDigitsCore 10 fuel n ds ≠ [] := by
  induction fuel with
  | zero =>
    intro n ds h
    rcases h with h | h
    · simpa [Nat.toDigitsCore] using h
    · omega
  | succ fuel ih =>
    intro n ds _
    simp only [Nat.toDigitsCore]
    split
    · simp
    · exact ih _ _ (Or.inl (by simp))

theorem toDigitsCore_value (fuel : Nat) : ∀ (n : Nat) (ds : List Char), n < fuel →
    digitsValue (Nat.toDigitsCore 10 fuel n ds) = ds.foldl digitStep n := by
  induction fuel with
  | zero => intro n ds h; omega
  | succ fuel ih =>
    intro n ds h
    simp only [Nat.toDigitsCore]
    split
    · rename_i h0
      have hn : n < 10 := by omega
      have hm : n % 10 = n := Nat.mod_eq_of_lt hn
      rw [hm]
      show List.foldl digitStep 0 (Nat.digitChar n :: ds) = _
      rw [List.foldl_cons, digitStep_digitChar 0 n hn]
      simp
    · rename_i h0
      rw [ih _ _ (by omega), List.foldl_cons, digitStep_digitChar _ _ (Nat.mod_lt n (by decide))]
      congr 1
      omega

theorem isDigit_not_space (c : Char) (h : c.isDigit = true) : isSpace c = false := by
  cases hs : isSpace c with
  | false => rfl
  | true =>
    simp only [isSpace, Bool.or_eq_true, decide_eq_true_eq] at hs
    rcases hs with ((((rfl | rfl) | rfl) | rfl) | rfl) | rfl <;> exact absurd h (by decide)

/-- On a run of digits followed by nothing or by a non-digit, `std::stoi` reads
exactly the run. -/
theorem stoi_digits (ds rest : List Char) (hne : ds ≠ [])
    (hds : ∀ c ∈ ds, c.isDigit = true) (hrest : ∀ c, rest.head? = some c → c.isDigit = false) :
    stoi (String.mk (ds ++ rest))
      = if INT_MAX < (digitsValue ds : Int) then .error .out_of_range
        else .ok (digitsValue ds : Int) := by
  obtain ⟨d, ds', rfl⟩ := List.exists_cons_of_ne_nil hne
  have hd : d.isDigit = true := hds d (by simp)
  have hsp : isSpace d = false := isDigit_not_space d hd
  have hm : d ≠ '-' := by rintro rfl; exact absurd hd (by decide)
  have hp : d ≠ '+' := by rintro rfl; exact absurd hd (by decide)
  have htake : ∀ (l : List Char), (∀ c ∈ l, c.isDigit = true) →
      (l ++ rest).takeWhile Char.isDigit = l := by
    intro l hl
    induction l with
    | nil =>
      cases rest with
      | nil => rfl
      | cons r rs => simp [List.takeWhile, hrest r rfl]
    | cons a l ih =>
      simp [List.takeWhile, hl a (by simp), ih (fun c hc => hl c (by simp [hc]))]
  have hdrop : (d :: (ds' ++ rest)).dropWhile isSpace = d :: (ds' ++ rest) := by
    simp [List.dropWhile, hsp]
  have hsign : readSign (d :: (ds' ++ rest)) = (false, d :: (ds' ++ rest)) := by
    unfold readSign
    split
    · rename_i h; exact absurd (List.cons.inj h).1 hm
    · rename_i h; exact absurd (List.cons.inj h).1 hp
    · rfl
  have hnn : ¬ ((digitsValue (d :: ds') : Int) < INT_MIN) := by
    have : (0 : Int) ≤ (digitsValue (d :: ds') : Int) := Int.ofNat_nonneg _
    unfold INT_MIN
    omega
  have htake' : (d :: (ds' ++ rest)).takeWhile Char.isDigit = d :: ds' := htake (d :: ds') hds
  simp [stoi, hdrop, hsign, htake', hnn]

theorem stoi_to_string (n : Nat) (h : (n : Int) ≤ INT_MAX) : stoi (to_string n) = .ok (n : Int) := by
  have hall := toDigitsCore_allDigits (n + 1) n [] (by simp)
  have hne := toDigitsCore_ne_nil (n + 1) n [] (Or.inr (by omega))
  have hval := toDigitsCore_value (n + 1) n [] (by omega)
  have hs := stoi_digits (Nat.toDigitsCore 10 (n + 1) n []) [] hne hall (by simp)
  simp only [List.append_nil, hval, List.foldl_nil] at hs
  show stoi (Nat.repr n) = _
  simp only [Nat.repr, Nat.toDigits, List.asString, hs]
  simp [not_lt.mpr h]

theorem stoi_range (s : String) (k : Int) (h : stoi s = .ok k) : INT_MIN ≤ k ∧ k ≤ INT_MAX := by
  unfold stoi at h
  simp only at h
  generalize readSign (List.dropWhile isSpace s.toList) = sg at h
  generalize (if sg.1 = true then -(digitsValue (List.takeWhile Char.isDigit sg.2) : Int)
    else (digitsValue (List.takeWhile Char.isDigit sg.2) : Int)) = v at h
  by_cases he : (List.takeWhile Char.isDigit sg.2).isEmpty = true
  · simp [he] at h
  · by_cases hr : (decide (v < INT_MIN) || decide (INT_MAX < v)) = true
    · simp only [he, hr] at h
      cases h
    · simp only [he, hr] at h
      injection h with h
      subst h
      simpa using hr

/-! ## 32-bit arithmetic -/

theorem wrapInt32_of_range (z : Int) (h1 : INT_MIN ≤ z) (h2 : z ≤ INT_MAX) : wrapInt32 z = z := by
  unfold INT_MIN at h1
  unfold INT_MAX at h2
  unfold wrapInt32
  omega

theorem wrapInt32_bounds (z : Int) : INT_MIN ≤ wrapInt32 z ∧ wrapInt32 z ≤ INT_MAX := by
  unfold INT_MIN INT_MAX wrapInt32
  omega

/-! ## Name lookup -/

theorem contains_some {name : String} {commands : List Command} {c : Command}
    (h : contains name commands = some c) : c ∈ commands ∧ c.name = name := by
  induction commands with
  | nil => simp [contains] at h
  | cons x xs ih =>
    unfold contains at h
    split at h
    · rename_i hx
      cases h
      exact ⟨by simp, hx⟩
    · exact ⟨List.mem_cons_of_mem _ (ih h).1, (ih h).2⟩

theorem contains_eq_none {name : String} {commands : List Command}
    (h : ∀ c ∈ commands, c.name ≠ name) : contains name commands = none := by
  induction commands with
  | nil => rfl
  | cons x xs ih =>
    unfold contains
    rw [if_neg (h x (by simp))]
    exact ih (fun c hc => h c (List.mem_cons_of_mem _ hc))

theorem lookupCommand_unknown {name : String} {commands : List Command} (hne : name ≠ "")
    (h : ∀ c ∈ commands, c.name ≠ name) :
    lookupCommand name commands = (none, [unknownCommandLine name]) := by
  simp [lookupCommand, hne, contains_eq_none h]

theorem lookupCommand_empty (commands : List Command) : lookupCommand "" commands = (none, []) := by
  simp [lookupCommand]

theorem lookupCommand_found {name : String} {commands : List Command} {c : Command}
    (hne : name ≠ "") (h : contains name commands = some c) :
    lookupCommand name commands = (some c, []) := by
  simp [lookupCommand, hne, h]

theorem lookupCommand_some {name : String} {commands : List Command} {c : Command}
    {out : List Line} (h : lookupCommand name commands = (some c, out)) :
    c ∈ commands ∧ c.name = name ∧ out = [] := by
  unfold lookupCommand at h
  simp only at h
  split at h
  · cases h
  · split at h
    · cases h
    · injection h with h1 h2
      exact ⟨(contains_some h1).1, (contains_some h1).2, h2.symm⟩

/-! ## The three ways through `resolveCommand` -/

theorem resolveCommand_name {command : String} (all available : List Command)
    (h : stoi command = .error .invalid_argument) :
    resolveCommand command all available = .ok (lookupCommand command all) := by
  simp [resolveCommand, h]

theorem resolveCommand_overflow {command : String} (all available : List Command)
    (h : stoi command = .error .out_of_range) :
    resolveCommand command all available = .error (.thrown .out_of_range) := by
  simp [resolveCommand, h]

theorem resolveCommand_bad_index {command : String} {k : Int} (all available : List Command)
    (h : stoi command = .ok k) (hk : k < 1 ∨ (available.length : Int) < k) :
    resolveCommand command all available = .ok (none, [badInputLine available]) := by
  obtain ⟨hlo, hhi⟩ := stoi_range command k h
  obtain ⟨wlo, whi⟩ := wrapInt32_bounds (available.length : Int)
  have hguard : wrapInt32 (k - 1) < 0 ∨ wrapInt32 (k - 1) ≥ wrapInt32 (available.length : Int) := by
    rcases hk with hk | hk
    · by_cases hmin : k = INT_MIN
      · right
        subst hmin
        have : wrapInt32 (INT_MIN - 1) = INT_MAX := by decide
        rw [this]
        exact whi
      · left
        rw [wrapInt32_of_range (k - 1) (by omega) (by omega)]
        omega
    · by_cases h1 : k < 1
      · by_cases hmin : k = INT_MIN
        · right
          subst hmin
          have : wrapInt32 (INT_MIN - 1) = INT_MAX := by decide
          rw [this]
          exact whi
        · left
          rw [wrapInt32_of_range (k - 1) (by omega) (by omega)]
          omega
      · right
        have hl0 : (0 : Int) ≤ (available.length : Int) := Int.ofNat_nonneg _
        rw [wrapInt32_of_range (k - 1) (by unfold INT_MIN at *; omega) (by omega),
          wrapInt32_of_range (available.length : Int) (by unfold INT_MIN; omega) (by omega)]
        omega
  simp only [resolveCommand, h]
  rw [if_pos (by simpa using hguard)]

theorem resolveCommand_index {command : String} {k : Int} {c : Command}
    (all available : List Command) (h : stoi command = .ok k) (h1 : 1 ≤ k)
    (h2 : k ≤ (available.length : Int)) (hlen : (available.length : Int) ≤ INT_MAX)
    (hc : available[(k - 1).toNat]? = some c) :
    resolveCommand command all available = .ok (lookupCommand c.name all) := by
  have hl0 : (0 : Int) ≤ (available.length : Int) := Int.ofNat_nonneg _
  have hw1 : wrapInt32 (k - 1) = k - 1 :=
    wrapInt32_of_range (k - 1) (by unfold INT_MIN; omega) (by omega)
  have hw2 : wrapInt32 (available.length : Int) = (available.length : Int) :=
    wrapInt32_of_range _ (by unfold INT_MIN; omega) hlen
  have hguard : ¬ (wrapInt32 (k - 1) < 0 ∨ wrapInt32 (k - 1) ≥ wrapInt32 (available.length : Int)) := by
    rw [hw1, hw2]
    omega
  simp only [resolveCommand, h]
  rw [if_neg (by simpa using hguard), hw1, hc]

/-! ## The registry -/

theorem allCommands_eq (ticker : String) : allCommands ticker = commandTable ticker := rfl

theorem availableCommands_full (commands : List Command) :
    availableCommands false commands = commands := rfl

theorem availableCommands_view (commands : List Command) :
    availableCommands true commands = commands.filter (fun c => c.viewWalletSupport) := rfl

theorem mem_of_mem_availableCommands {viewWallet : Bool} {commands : List Command} {c : Command}
    (h : c ∈ availableCommands viewWallet commands) : c ∈ commands := by
  cases viewWallet with
  | false => exact h
  | true => exact (List.mem_filter.mp h).1

theorem registry_stoi (ticker : String) {c : Command} (h : c ∈ commandTable ticker) :
    stoi c.name = .error .invalid_argument := by
  simp only [commandTable, List.mem_cons, List.mem_singleton, List.not_mem_nil, or_false] at h
  rcases h with h | h | h | h | h | h | h | h | h | h | h | h | h | h | h | h | h | h | h | h | h <;>
    (subst h; rfl)

theorem registry_lookup (ticker : String) {c : Command} (h : c ∈ commandTable ticker) :
    lookupCommand c.name (commandTable ticker) = (some c, []) := by
  simp only [commandTable, List.mem_cons, List.mem_singleton, List.not_mem_nil, or_false] at h
  rcases h with h | h | h | h | h | h | h | h | h | h | h | h | h | h | h | h | h | h | h | h | h <;>
    (subst h; rfl)

theorem registry_available_length (ticker : String) (viewWallet : Bool) :
    ((availableCommands viewWallet (allCommands ticker)).length : Int) ≤ INT_MAX := by
  cases viewWallet with
  | false =>
    have h : (availableCommands false (allCommands ticker)).length = 21 := rfl
    rw [h]
    decide
  | true =>
    have h : (availableCommands true (allCommands ticker)).length = 15 := rfl
    rw [h]
    decide

/-- A displayed position of the registry resolves to the command at that
position of the available list. -/
theorem registry_resolve_index (ticker : String) (viewWallet : Bool) (i : Nat) (h1 : 1 ≤ i)
    (h2 : i ≤ (availableCommands viewWallet (allCommands ticker)).length) :
    ∃ c, (availableCommands viewWallet (allCommands ticker))[i - 1]? = some c ∧
      resolveCommand (to_string (i : Int)) (allCommands ticker)
        (availableCommands viewWallet (allCommands ticker)) = .ok (some c, []) := by
  have hlen := registry_available_length ticker viewWallet
  have hlt : i - 1 < (availableCommands viewWallet (allCommands ticker)).length := by omega
  refine ⟨(availableCommands viewWallet (allCommands ticker))[i - 1], List.getElem?_eq_getElem hlt, ?_⟩
  have hmem : (availableCommands viewWallet (allCommands ticker))[i - 1] ∈ commandTable ticker :=
    mem_of_mem_availableCommands (List.getElem_mem hlt)
  have hi : ((i : Int) - 1).toNat = i - 1 := by omega
  rw [resolveCommand_index (allCommands ticker) _ (stoi_to_string i (by omega)) (by omega)
    (by omega) hlen (by rw [hi]; exact List.getElem?_eq_getElem hlt)]
  exact congrArg Except.ok (registry_lookup ticker hmem)


/-! ## The listing loop -/

/-- Every line written by the loop of `listCommands` belongs to a command of the
requested tier at some position `p`, and shows the starting index plus the
number of commands of that tier before `p`. -/
theorem listCommandsLoop_mem (advanced : Bool) : ∀ (commands : List Command) (index : Int)
    (line : Line), 0 ≤ index → index + (commands.length : Int) ≤ INT_MAX →
    line ∈ listCommandsLoop advanced index commands →
    ∃ (p : Nat) (c : Command), commands[p]? = some c ∧ c.advanced = advanced ∧
      line = [.text " ",
        .informationMsg (to_string
          (index + ((commands.take p).countP (fun x => x.advanced = advanced) : Nat))),
        .text "\t", .successMsgPadded c.name 25, .text c.description] := by
  intro commands
  induction commands with
  | nil => intro index line _ _ h; simp [listCommandsLoop] at h
  | cons x xs ih =>
    intro index line h0 hmax h
    have hlen : ((x :: xs).length : Int) = (xs.length : Int) + 1 := by simp
    unfold listCommandsLoop at h
    split at h
    · rename_i hx
      rcases List.mem_cons.mp h with h | h
      · exact ⟨0, x, by simp, hx, by simpa using h⟩
      · have hw : wrapInt32 (index + 1) = index + 1 :=
          wrapInt32_of_range _ (by unfold INT_MIN; omega) (by omega)
        rw [hw] at h
        obtain ⟨p, c, hp, hc, hl⟩ := ih (index + 1) line (by omega) (by omega) h
        refine ⟨p + 1, c, by simpa using hp, hc, ?_⟩
        rw [hl, List.take_succ_cons, List.countP_cons_of_pos _ _ (by simpa using hx)]
        have : index + 1 + (List.countP (fun x => decide (x.advanced = advanced)) (List.take p xs) : Nat)
            = index + ((List.countP (fun x => decide (x.advanced = advanced)) (List.take p xs) + 1 : Nat) : Int) := by
          push_cast
          omega
        rw [this]
    · rename_i hx
      obtain ⟨p, c, hp, hc, hl⟩ := ih index line h0 (by omega) h
      refine ⟨p + 1, c, by simpa using hp, hc, ?_⟩
      rw [hl, List.take_succ_cons, List.countP_cons_of_neg _ _ (by simpa using hx)]

/-- The tier flags of the full registry, in order. -/
theorem registry_flags_full (ticker : String) :
    (availableCommands false (allCommands ticker)).map (fun c => c.advanced)
      = [false, false, false, false, false, false, false, true, true, true, true, true, true,
          true, true, true, true, true, true, true, true] := rfl

/-- The tier flags of the view-only available list, in order. -/
theorem registry_flags_view (ticker : String) :
    (availableCommands true (allCommands ticker)).map (fun c => c.advanced)
      = [false, false, false, false, false, false, true, true, true, true, true, true, true,
          true, true] := rfl

/-- When every basic flag precedes every advanced flag, the number of flags of
tier `tier` before a position holding that tier, added to the first index of
the tier, is the position plus one. -/
theorem flags_index_full : ∀ (tier : Bool), ∀ p < 21,
    [false, false, false, false, false, false, false, true, true, true, true, true, true,
      true, true, true, true, true, true, true, true][p]? = some tier →
    (if tier then 8 else 1) + (List.take p
      [false, false, false, false, false, false, false, true, true, true, true, true, true,
        true, true, true, true, true, true, true, true]).countP (fun b => b = tier) = p + 1 := by
  decide

theorem flags_index_view : ∀ (tier : Bool), ∀ p < 15,
    [false, false, false, false, false, false, true, true, true, true, true, true, true,
      true, true][p]? = some tier →
    (if tier then 7 else 1) + (List.take p
      [false, false, false, false, false, false, true, true, true, true, true, true, true,
        true, true]).countP (fun b => b = tier) = p + 1 := by
  decide

theorem registry_numBasic_full (ticker : String) :
    numBasicCommands (availableCommands false (allCommands ticker)) = 7 := by
  have hcnt : (availableCommands false (allCommands ticker)).countP (fun c => !c.advanced) = 7 :=
    rfl
  unfold numBasicCommands
  rw [hcnt]
  decide

theorem registry_numBasic_view (ticker : String) :
    numBasicCommands (availableCommands true (allCommands ticker)) = 6 := by
  have hcnt : (availableCommands true (allCommands ticker)).countP (fun c => !c.advanced) = 6 :=
    rfl
  unfold numBasicCommands
  rw [hcnt]
  decide

/-- In the registry, under either mode, the running index that `listCommands`
reaches at a command of the listed tier is its position in the available list
plus one. -/
theorem registry_listing_index (ticker : String) (viewWallet tier : Bool) (p : Nat) (c : Command)
    (hp : (availableCommands viewWallet (allCommands ticker))[p]? = some c)
    (hc : c.advanced = tier) :
    (if tier then wrapInt32 (numBasicCommands (availableCommands viewWallet (allCommands ticker)) + 1)
      else 1)
      + (((availableCommands viewWallet (allCommands ticker)).take p).countP
          (fun x => x.advanced = tier) : Nat)
      = ((p + 1 : Nat) : Int) := by
  have hlt : p < (availableCommands viewWallet (allCommands ticker)).length := by
    by_contra hge
    rw [List.getElem?_eq_none (by omega)] at hp
    cases hp
  have hflag : ((availableCommands viewWallet (allCommands ticker)).map (fun c => c.advanced))[p]?
      = some tier := by
    rw [List.getElem?_map, hp]
    simp [hc]
  have hcount : ((availableCommands viewWallet (allCommands ticker)).take p).countP
      (fun x => x.advanced = tier)
      = (((availableCommands viewWallet (allCommands ticker)).map (fun c => c.advanced)).take p).countP
          (fun b => b = tier) := by
    rw [← List.map_take, List.countP_map]
    rfl
  rw [hcount]
  cases viewWallet with
  | false =>
    have hl : (availableCommands false (allCommands ticker)).length = 21 := rfl
    have hn := registry_numBasic_full ticker
    have hs : (if tier then
        wrapInt32 (numBasicCommands (availableCommands false (allCommands ticker)) + 1) else 1)
        = (((if tier then 8 else 1 : Nat)) : Int) := by
      rw [hn]
      cases tier <;> decide
    rw [hl] at hlt
    rw [registry_flags_full] at hflag ⊢
    rw [hs]
    exact_mod_cast flags_index_full tier p hlt hflag
  | true =>
    have hl : (availableCommands true (allCommands ticker)).length = 15 := rfl
    have hn := registry_numBasic_view ticker
    have hs : (if tier then
        wrapInt32 (numBasicCommands (availableCommands true (allCommands ticker)) + 1) else 1)
        = (((if tier then 7 else 1 : Nat)) : Int) := by
      rw [hn]
      cases tier <;> decide
    rw [hl] at hlt
    rw [registry_flags_view] at hflag ⊢
    rw [hs]
    exact_mod_cast flags_index_view tier p hlt hflag

/-! ## The dispatcher -/

theorem routeCommand_exit (walletInfo : WalletInfo) (available : List Command) :
    routeCommand walletInfo available "exit" = ⟨true, [], []⟩ := rfl

theorem routeCommand_exit_iff (walletInfo : WalletInfo) (available : List Command)
    (command : String) :
    (routeCommand walletInfo available command).exit = true ↔ command = "exit" := by
  by_cases he : command = "exit"
  · subst he
    simp [routeCommand_exit]
  · have hf : (routeCommand walletInfo available command).exit = false := by
      unfold routeCommand
      simp only [apply_ite DispatchResult.exit, if_neg he, ite_self]
    simp [hf, he]

theorem registry_exit_supported (ticker : String) {c : Command} (h : c ∈ commandTable ticker)
    (hn : c.name = "exit") : c.viewWalletSupport = true := by
  simp only [commandTable, List.mem_cons, List.mem_singleton, List.not_mem_nil, or_false] at h
  rcases h with h | h | h | h | h | h | h | h | h | h | h | h | h | h | h | h | h | h | h | h | h <;>
    (subst h; first | rfl | simp at hn)

/-- What `dispatchCommand` does once the resolver has returned. -/
theorem dispatchCommand_of_resolved {ticker : String} {walletInfo : WalletInfo}
    {command : String} {r : Option Command × List Line}
    (h : resolveCommand command (allCommands ticker)
      (availableCommands walletInfo.viewWallet (allCommands ticker)) = .ok r) :
    dispatchCommand ticker walletInfo command =
      match r with
      | (none, out) => .ok ⟨false, out, []⟩
      | (some c, out) =>
        if walletInfo.viewWallet && !c.viewWalletSupport then
          .ok ⟨false, out ++ [viewOnlyLine], []⟩
        else
          .ok ⟨(routeCommand walletInfo
              (availableCommands walletInfo.viewWallet (allCommands ticker)) c.name).exit,
            out ++ (routeCommand walletInfo
              (availableCommands walletInfo.viewWallet (allCommands ticker)) c.name).output,
            (routeCommand walletInfo
              (availableCommands walletInfo.viewWallet (allCommands ticker)) c.name).handlers⟩ := by
  unfold dispatchCommand
  simp only [h]
  rcases r with ⟨_ | c, out⟩ <;> rfl

theorem dispatchCommand_of_fault {ticker : String} {walletInfo : WalletInfo}
    {command : String} {e : Fault}
    (h : resolveCommand command (allCommands ticker)
      (availableCommands walletInfo.viewWallet (allCommands ticker)) = .error e) :
    dispatchCommand ticker walletInfo command = .error e := by
  unfold dispatchCommand
  simp only [h]

/-- A command returned by the resolver is an entry of the full list, and the
resolver wrote nothing. -/
theorem resolveCommand_some {command : String} {all available : List Command} {c : Command}
    {out : List Line} (h : resolveCommand command all available = .ok (some c, out)) :
    c ∈ all ∧ out = [] := by
  unfold resolveCommand at h
  split at h
  · simp only at h
    split at h
    · cases h
    · split at h
      · injection h with h
        exact ⟨(lookupCommand_some h).1, (lookupCommand_some h).2.2⟩
      · cases h
  · injection h with h
    exact ⟨(lookupCommand_some h).1, (lookupCommand_some h).2.2⟩
  · cases h

/-- A registry name resolves to its registry entry, whatever the mode. -/
theorem name_lookup_registry (ticker : String) (viewWallet : Bool) (c : Command)
    (h : c ∈ allCommands ticker) :
    resolveCommand c.name (allCommands ticker)
      (availableCommands viewWallet (allCommands ticker)) = .ok (some c, []) := by
  rw [resolveCommand_name _ _ (registry_stoi ticker h)]
  exact congrArg Except.ok (registry_lookup ticker h)

/-! ## Claims -/

/-- C1. Numeric round trip: in either session mode, with `all = allCommands()`
and `available = availableCommands(viewWallet, all)`, for every `i` with
`1 <= i <= len(available)` the resolver applied to the decimal string of `i`
returns exactly the command `available[i-1]`, with no output. -/
theorem numeric_round_trip (ticker : String) (viewWallet : Bool) (i : Nat) (h1 : 1 ≤ i)
    (h2 : i ≤ (availableCommands viewWallet (allCommands ticker)).length) :
    ∃ c, (availableCommands viewWallet (allCommands ticker))[i - 1]? = some c ∧
      resolveCommand (to_string (i : Int)) (allCommands ticker)
        (availableCommands viewWallet (allCommands ticker)) = .ok (some c, []) :=
  registry_resolve_index ticker viewWallet i h1 h2

theorem numeric_round_trip_witness :
    1 ≤ 7 ∧ 7 ≤ (availableCommands true (allCommands "TRTL")).length ∧
    ∃ c, (availableCommands true (allCommands "TRTL"))[7 - 1]? = some c ∧
      resolveCommand (to_string ((7 : Nat) : Int)) (allCommands "TRTL")
        (availableCommands true (allCommands "TRTL")) = .ok (some c, []) :=
  ⟨by decide, by decide, numeric_round_trip "TRTL" true 7 (by decide) (by decide)⟩

/-- C2. Name lookup is against the full registry, not the filtered list: in
either session mode, for every command `c` of `allCommands()` (also one absent
from the view-only available list) `resolveCommand(c.name, all, available)`
returns `c` and writes no diagnostic. -/
theorem name_lookup_full_registry (ticker : String) (viewWallet : Bool) (c : Command)
    (h : c ∈ allCommands ticker) :
    resolveCommand c.name (allCommands ticker)
      (availableCommands viewWallet (allCommands ticker)) = .ok (some c, []) :=
  name_lookup_registry ticker viewWallet c h

theorem name_lookup_full_registry_witness :
    (⟨"transfer", "Send TRTL to someone", false, false⟩ : Command) ∈ allCommands "TRTL" ∧
    (⟨"transfer", "Send TRTL to someone", false, false⟩ : Command)
      ∉ availableCommands true (allCommands "TRTL") ∧
    resolveCommand "transfer" (allCommands "TRTL") (availableCommands true (allCommands "TRTL"))
      = .ok (some ⟨"transfer", "Send TRTL to someone", false, false⟩, []) :=
  ⟨by decide, by decide,
    name_lookup_full_registry "TRTL" true ⟨"transfer", "Send TRTL to someone", false, false⟩
      (by decide)⟩

/-- C3. Displayed numbering and interpreted numbering agree: in either session
mode, with `available = availableCommands(viewWallet, allCommands())`, every
line that `listCommands(available, tier)` prints, for the basic or the advanced
tier, shows an index `k` and the name of a command `c` such that
`resolveCommand` applied to the decimal string of `k` returns `c`. -/
theorem listing_matches_resolution (ticker : String) (viewWallet tier : Bool) (line : Line)
    (h : line ∈ listCommands (availableCommands viewWallet (allCommands ticker)) tier) :
    ∃ (k : Nat) (c : Command),
      line = [.text " ", .informationMsg (to_string (k : Int)), .text "\t",
        .successMsgPadded c.name 25, .text c.description] ∧
      resolveCommand (to_string (k : Int)) (allCommands ticker)
        (availableCommands viewWallet (allCommands ticker)) = .ok (some c, []) := by
  have hbounds : (0 : Int) ≤ (if tier then
      wrapInt32 (numBasicCommands (availableCommands viewWallet (allCommands ticker)) + 1) else 1)
      ∧ (if tier then
      wrapInt32 (numBasicCommands (availableCommands viewWallet (allCommands ticker)) + 1) else 1)
      + ((availableCommands viewWallet (allCommands ticker)).length : Int) ≤ INT_MAX := by
    cases viewWallet with
    | false =>
      have hl : (availableCommands false (allCommands ticker)).length = 21 := rfl
      rw [registry_numBasic_full, hl]
      cases tier <;> decide
    | true =>
      have hl : (availableCommands true (allCommands ticker)).length = 15 := rfl
      rw [registry_numBasic_view, hl]
      cases tier <;> decide
  obtain ⟨p, c, hp, hc, hline⟩ := listCommandsLoop_mem tier _ _ line hbounds.1 hbounds.2 h
  have hlt : p < (availableCommands viewWallet (allCommands ticker)).length := by
    by_contra hge
    rw [List.getElem?_eq_none (by omega)] at hp
    cases hp
  rw [registry_listing_index ticker viewWallet tier p c hp hc] at hline
  obtain ⟨c', hc', hres⟩ := registry_resolve_index ticker viewWallet (p + 1) (by omega) (by omega)
  have hcc : c' = c := by
    rw [Nat.add_sub_cancel, hp] at hc'
    exact (Option.some.inj hc').symm
  subst hcc
  exact ⟨p + 1, c', hline, hres⟩

theorem listing_matches_resolution_witness :
    ([.text " ", .informationMsg "8", .text "\t", .successMsgPadded "ab_add" 25,
        .text "Add a person to your address book"] : Line)
      ∈ listCommands (availableCommands false (allCommands "TRTL")) true ∧
    ∃ (k : Nat) (c : Command),
      ([.text " ", .informationMsg "8", .text "\t", .successMsgPadded "ab_add" 25,
        .text "Add a person to your address book"] : Line)
        = [.text " ", .informationMsg (to_string (k : Int)), .text "\t",
          .successMsgPadded c.name 25, .text c.description] ∧
      resolveCommand (to_string (k : Int)) (allCommands "TRTL")
        (availableCommands false (allCommands "TRTL")) = .ok (some c, []) :=
  ⟨by decide, listing_matches_resolution "TRTL" false true _ (by decide)⟩

/-- C4. Exit is the only terminal command: in either session mode, for every
input token on which `resolveCommand` returns (a command or a failure),
`dispatchCommand` returns, and it returns true if and only if the token
resolved to the command named "exit"; a failed resolution, a forbidden command
and every other resolved command give false. When it returns true no handler
was invoked and nothing was written. -/
theorem exit_only_terminal (ticker : String) (walletInfo : WalletInfo) (command : String)
    (r : Option Command × List Line)
    (h : resolveCommand command (allCommands ticker)
      (availableCommands walletInfo.viewWallet (allCommands ticker)) = .ok r) :
    ∃ d, dispatchCommand ticker walletInfo command = .ok d ∧
      (d.exit = true ↔ ∃ c, r.1 = some c ∧ c.name = "exit") ∧
      (d.exit = true → d.handlers = [] ∧ d.output = []) := by
  rw [dispatchCommand_of_resolved h]
  rcases r with ⟨_ | c, out⟩
  · exact ⟨_, rfl, by simp, by simp⟩
  · obtain ⟨hmem, hout⟩ := resolveCommand_some h
    subst hout
    by_cases hgate : (walletInfo.viewWallet && !c.viewWalletSupport) = true
    · refine ⟨_, by simp only [hgate]; rfl, ?_, by simp⟩
      have hsup : c.viewWalletSupport = false := by
        cases hs : c.viewWalletSupport with
        | false => rfl
        | true => simp [hs] at hgate
      have hname : c.name ≠ "exit" := by
        intro hn
        rw [registry_exit_supported ticker hmem hn] at hsup
        cases hsup
      simp [hname]
    · refine ⟨_, by simp only [hgate]; rfl, ?_, ?_⟩
      · simp [routeCommand_exit_iff]
      · intro he
        have hn : c.name = "exit" := (routeCommand_exit_iff _ _ _).mp he
        simp only [hn, routeCommand_exit]
        simp

theorem exit_only_terminal_witness :
    resolveCommand "4" (allCommands "TRTL")
      (availableCommands (WalletInfo.mk true "TRTLaddr").viewWallet (allCommands "TRTL"))
      = .ok (some ⟨"exit", "Exit and save your wallet", true, false⟩, []) ∧
    ∃ d, dispatchCommand "TRTL" ⟨true, "TRTLaddr"⟩ "4" = .ok d ∧
      (d.exit = true ↔ ∃ c : Command,
        (some (Command.mk "exit" "Exit and save your wallet" true false), ([] : List Line)).1
          = some c ∧ c.name = "exit") ∧
      (d.exit = true → d.handlers = [] ∧ d.output = []) :=
  ⟨rfl, exit_only_terminal "TRTL" ⟨true, "TRTLaddr"⟩ "4" _ rfl⟩

/-- C5. Known-but-forbidden is distinguished from unknown: in a view-only
session, for every command `c` of `allCommands()` with `viewWalletSupport`
false, `dispatchCommand` on the token `c.name` writes exactly the "not
available in a view only wallet" line, so not the "Unknown command" line,
invokes no handler and returns false. -/
theorem forbidden_not_unknown (ticker : String) (walletInfo : WalletInfo) (c : Command)
    (hview : walletInfo.viewWallet = true) (h : c ∈ allCommands ticker)
    (hsup : c.viewWalletSupport = false) :
    dispatchCommand ticker walletInfo c.name
      = .ok ⟨false, [[.warningMsg "This command is not available in a view only wallet..."]], []⟩
    ∧ unknownCommandLine c.name
      ∉ [[Msg.warningMsg "This command is not available in a view only wallet..."]] := by
  constructor
  · rw [dispatchCommand_of_resolved (name_lookup_registry ticker walletInfo.viewWallet c h)]
    simp [hview, hsup, viewOnlyLine]
  · simp [unknownCommandLine]

theorem forbidden_not_unknown_witness :
    (WalletInfo.mk true "TRTLaddr").viewWallet = true ∧
    (⟨"transfer", "Send TRTL to someone", false, false⟩ : Command) ∈ allCommands "TRTL" ∧
    (⟨"transfer", "Send TRTL to someone", false, false⟩ : Command).viewWalletSupport = false ∧
    dispatchCommand "TRTL" ⟨true, "TRTLaddr"⟩ "transfer"
      = .ok ⟨false, [[.warningMsg "This command is not available in a view only wallet..."]], []⟩
    ∧ unknownCommandLine "transfer"
      ∉ [[Msg.warningMsg "This command is not available in a view only wallet..."]] :=
  ⟨rfl, by decide, rfl,
    forbidden_not_unknown "TRTL" ⟨true, "TRTLaddr"⟩
      ⟨"transfer", "Send TRTL to someone", false, false⟩ rfl (by decide) rfl⟩

/-- C6. Numeric out-of-range: for every available list of length `n` and every
token that `std::stoi` parses to an integer `k` with `k < 1` or `k > n`,
`resolveCommand` returns no command and writes exactly one line, the bad-input
line giving the range "1" to the decimal string of `n`, the length of the
available list it was given. The tokens "0" and, when `n + 1` fits an `int`,
the decimal string of `n + 1` are such tokens. -/
theorem numeric_out_of_range (all available : List Command) (command : String) (k : Int)
    (h : stoi command = .ok k) (hk : k < 1 ∨ (available.length : Int) < k) :
    resolveCommand command all available
      = .ok (none, [[.warningMsg "Bad input: Expected a command name, or number from ",
          .informationMsg "1", .warningMsg " to ",
          .informationMsg (to_string (available.length : Int))]])
    ∧ resolveCommand "0" all available
      = .ok (none, [[.warningMsg "Bad input: Expected a command name, or number from ",
          .informationMsg "1", .warningMsg " to ",
          .informationMsg (to_string (available.length : Int))]])
    ∧ ((available.length : Int) + 1 ≤ INT_MAX →
      resolveCommand (to_string ((available.length : Int) + 1)) all available
        = .ok (none, [[.warningMsg "Bad input: Expected a command name, or number from ",
            .informationMsg "1", .warningMsg " to ",
            .informationMsg (to_string (available.length : Int))]])) := by
  have hzero : stoi "0" = .ok 0 := rfl
  refine ⟨resolveCommand_bad_index all available h hk,
    resolveCommand_bad_index all available hzero (Or.inl (by decide)), fun hfit => ?_⟩
  have hs := stoi_to_string (available.length + 1) (by exact_mod_cast hfit)
  rw [Nat.cast_add, Nat.cast_one] at hs
  exact resolveCommand_bad_index all available hs (Or.inr (by omega))

theorem numeric_out_of_range_witness :
    stoi "11" = .ok 11 ∧
    ((11 : Int) < 1 ∨ (((availableCommands true (allCommands "TRTL")).take 10).length : Int) < 11) ∧
    resolveCommand "11" (allCommands "TRTL") ((availableCommands true (allCommands "TRTL")).take 10)
      = .ok (none, [[.warningMsg "Bad input: Expected a command name, or number from ",
          .informationMsg "1", .warningMsg " to ", .informationMsg "10"]]) :=
  ⟨rfl, Or.inr (by decide),
    (numeric_out_of_range (allCommands "TRTL") ((availableCommands true (allCommands "TRTL")).take 10)
      "11" 11 rfl (Or.inr (by decide))).1⟩

/-- C7. Empty input is a silent no-op: for every pair of command lists
`resolveCommand("", all, available)` returns no command and writes nothing, and
`dispatchCommand` on "" returns false, writes nothing and invokes no handler. -/
theorem empty_input_silent (all available : List Command) (ticker : String)
    (walletInfo : WalletInfo) :
    resolveCommand "" all available = .ok (none, []) ∧
    dispatchCommand ticker walletInfo "" = .ok ⟨false, [], []⟩ := by
  have hr : ∀ (all available : List Command), resolveCommand "" all available = .ok (none, []) := by
    intro all available
    have hs : stoi "" = .error .invalid_argument := rfl
    rw [resolveCommand_name all available hs, lookupCommand_empty]
  exact ⟨hr all available, by rw [dispatchCommand_of_resolved (hr _ _)]⟩

/-- The part of C8 that the code satisfies. Name matching is exact and
case-sensitive on the tokens that `std::stoi` rejects with
`std::invalid_argument`: for every such non-empty token that is not character
for character the name of a command of `allCommands()`, `resolveCommand`
returns no command and writes the "Unknown command" line carrying the literal
token, and `dispatchCommand` returns false after that line, with no handler
invoked. -/
theorem unknown_command_exact (ticker : String) (walletInfo : WalletInfo) (command : String)
    (hne : command ≠ "") (hparse : stoi command = .error .invalid_argument)
    (hname : ∀ c ∈ allCommands ticker, c.name ≠ command) :
    resolveCommand command (allCommands ticker)
      (availableCommands walletInfo.viewWallet (allCommands ticker))
      = .ok (none, [[.text "Unknown command: ", .warningMsg command, .text ", use ",
          .suggestionMsg "help", .text " command to list all possible commands."]])
    ∧ dispatchCommand ticker walletInfo command
      = .ok ⟨false, [[.text "Unknown command: ", .warningMsg command, .text ", use ",
          .suggestionMsg "help", .text " command to list all possible commands."]], []⟩ := by
  have hr : resolveCommand command (allCommands ticker)
      (availableCommands walletInfo.viewWallet (allCommands ticker))
      = .ok (none, [unknownCommandLine command]) := by
    rw [resolveCommand_name _ _ hparse, lookupCommand_unknown hne hname]
  exact ⟨hr, by rw [dispatchCommand_of_resolved hr]; rfl⟩

theorem unknown_command_exact_witness :
    "EXIT" ≠ "" ∧ stoi "EXIT" = .error .invalid_argument ∧
    (∀ c ∈ allCommands "TRTL", c.name ≠ "EXIT") ∧
    resolveCommand "EXIT" (allCommands "TRTL")
      (availableCommands (WalletInfo.mk false "TRTLaddr").viewWallet (allCommands "TRTL"))
      = .ok (none, [[.text "Unknown command: ", .warningMsg "EXIT", .text ", use ",
          .suggestionMsg "help", .text " command to list all possible commands."]])
    ∧ dispatchCommand "TRTL" ⟨false, "TRTLaddr"⟩ "EXIT"
      = .ok ⟨false, [[.text "Unknown command: ", .warningMsg "EXIT", .text ", use ",
          .suggestionMsg "help", .text " command to list all possible commands."]], []⟩ :=
  ⟨by decide, rfl, by decide,
    unknown_command_exact "TRTL" ⟨false, "TRTLaddr"⟩ "EXIT" (by decide) rfl (by decide)⟩

/-- C8, at the failing input. The token "99999999999" is not empty, is not the
name of a command of `allCommands()` and does not parse as an `int`, yet
`resolveCommand` neither returns nor writes the "Unknown command" line:
`std::stoi` throws `std::out_of_range`, which the `catch` clause for
`std::invalid_argument` does not handle, so the exception leaves
`resolveCommand` and `dispatchCommand` and no value, false or other, is
returned. -/
theorem unknown_command_overflow_escapes (ticker : String) (walletInfo : WalletInfo) :
    "99999999999" ≠ "" ∧
    (∀ c ∈ allCommands ticker, c.name ≠ "99999999999") ∧
    (∀ k, stoi "99999999999" ≠ .ok k) ∧
    resolveCommand "99999999999" (allCommands ticker)
      (availableCommands walletInfo.viewWallet (allCommands ticker))
      = .error (.thrown .out_of_range) ∧
    (∀ out, resolveCommand "99999999999" (allCommands ticker)
      (availableCommands walletInfo.viewWallet (allCommands ticker))
      ≠ .ok (none, out)) ∧
    dispatchCommand ticker walletInfo "99999999999" = .error (.thrown .out_of_range) ∧
    (∀ d, dispatchCommand ticker walletInfo "99999999999" ≠ .ok d) := by
  have hs : stoi "99999999999" = .error .out_of_range := rfl
  have hr := resolveCommand_overflow (allCommands ticker)
    (availableCommands walletInfo.viewWallet (allCommands ticker)) hs
  have hd : dispatchCommand ticker walletInfo "99999999999" = .error (.thrown .out_of_range) :=
    dispatchCommand_of_fault hr
  refine ⟨by decide, fun c hc hn => ?_, fun k hk => ?_, hr, fun out ho => ?_, hd, fun d hdd => ?_⟩
  · have hi := registry_stoi ticker hc
    rw [hn, hs] at hi
    cases hi
  · rw [hs] at hk
    cases hk
  · rw [hr] at ho
    cases ho
  · rw [hd] at hdd
    cases hdd

/-- C9, as stated, fails: "1abc" is a digit followed by non-digits, yet
`resolveCommand` reads it as the numeric choice 1 and returns the first
available command instead of failing with the "Unknown command" line. -/
theorem trailing_garbage_counterexample :
    "1abc".toList = ['1'] ++ 'a' :: ['b', 'c'] ∧ '1'.isDigit = true ∧ 'a'.isDigit = false ∧
    resolveCommand "1abc" (allCommands "TRTL") (availableCommands false (allCommands "TRTL"))
      = .ok (some ⟨"address", "Display your payment address", true, false⟩, []) ∧
    resolveCommand "1abc" (allCommands "TRTL") (availableCommands false (allCommands "TRTL"))
      ≠ .ok (none, [unknownCommandLine "1abc"]) := by
  have h : resolveCommand "1abc" (allCommands "TRTL") (availableCommands false (allCommands "TRTL"))
      = .ok (some ⟨"address", "Display your payment address", true, false⟩, []) := rfl
  refine ⟨rfl, rfl, rfl, h, ?_⟩
  rw [h]
  intro hcontra
  cases hcontra

/-- C9, amended. A token made of decimal digits whose value fits an `int`,
followed by at least one non-digit character, is read by `std::stoi` as the
value of its digits, and `resolveCommand` treats it as that numeric choice: it
returns exactly what it returns on the digits alone, for every pair of command
lists. -/
theorem trailing_garbage_ignored (all available : List Command) (ds : List Char) (c : Char)
    (rest : List Char) (hne : ds ≠ []) (hds : ∀ d ∈ ds, d.isDigit = true)
    (hc : c.isDigit = false) (hfit : (digitsValue ds : Int) ≤ INT_MAX) :
    stoi (String.mk (ds ++ c :: rest)) = .ok (digitsValue ds : Int) ∧
    resolveCommand (String.mk (ds ++ c :: rest)) all available
      = resolveCommand (String.mk ds) all available := by
  have h1 : stoi (String.mk (ds ++ c :: rest)) = .ok (digitsValue ds : Int) := by
    rw [stoi_digits ds (c :: rest) hne hds (by intro x hx; cases hx; exact hc),
      if_neg (not_lt.mpr hfit)]
  have h2 : stoi (String.mk ds) = .ok (digitsValue ds : Int) := by
    have := stoi_digits ds [] hne hds (by simp)
    rw [List.append_nil, if_neg (not_lt.mpr hfit)] at this
    exact this
  exact ⟨h1, by simp only [resolveCommand, h1, h2]⟩

theorem trailing_garbage_ignored_witness :
    ['1'] ≠ [] ∧ (∀ d ∈ ['1'], d.isDigit = true) ∧ 'a'.isDigit = false ∧
    (digitsValue ['1'] : Int) ≤ INT_MAX ∧
    stoi (String.mk (['1'] ++ 'a' :: ['b', 'c'])) = .ok (digitsValue ['1'] : Int) ∧
    resolveCommand (String.mk (['1'] ++ 'a' :: ['b', 'c'])) (allCommands "TRTL")
        (availableCommands true (allCommands "TRTL"))
      = resolveCommand (String.mk ['1']) (allCommands "TRTL")
        (availableCommands true (allCommands "TRTL")) :=
  ⟨by decide, by decide, rfl, by decide,
    trailing_garbage_ignored (allCommands "TRTL") (availableCommands true (allCommands "TRTL"))
      ['1'] 'a' ['b', 'c'] (by decide) (by decide) rfl (by decide)⟩

/-- C10, at the failing input. The digit string "99999999999" exceeds the range
of `int`: `std::stoi` throws `std::out_of_range`, which the `catch` clause for
`std::invalid_argument` does not handle, so the exception leaves
`resolveCommand`, for every pair of command lists, and leaves `dispatchCommand`
in every session. No name lookup takes place and nothing is returned. -/
theorem out_of_int_range_escapes (all available : List Command) (ticker : String)
    (walletInfo : WalletInfo) :
    stoi "99999999999" = .error .out_of_range ∧
    resolveCommand "99999999999" all available = .error (.thrown .out_of_range) ∧
    dispatchCommand ticker walletInfo "99999999999" = .error (.thrown .out_of_range) := by
  have hs : stoi "99999999999" = .error .out_of_range := rfl
  exact ⟨hs, resolveCommand_overflow all available hs,
    dispatchCommand_of_fault (resolveCommand_overflow _ _ hs)⟩

/-! ## Ordering and uniqueness in the registry -/

/-- The names and tier flags of the full registry, in order. -/
theorem registry_keys_full (ticker : String) :
    (allCommands ticker).map (fun c => (c.name, c.advanced))
      = [("address", false), ("advanced", false), ("balance", false), ("exit", false),
          ("export_keys", false), ("help", false), ("transfer", false), ("ab_add", true),
          ("ab_delete", true), ("ab_list", true), ("ab_send", true), ("bc_height", true),
          ("change_password", true), ("incoming_transfers", true), ("list_transfers", true),
          ("optimize", true), ("outgoing_transfers", true), ("reset", true), ("save", true),
          ("save_csv", true), ("status", true)] := rfl

/-- The names and tier flags of the view-only available list, in order. -/
theorem registry_keys_view (ticker : String) :
    (availableCommands true (allCommands ticker)).map (fun c => (c.name, c.advanced))
      = [("address", false), ("advanced", false), ("balance", false), ("exit", false),
          ("export_keys", false), ("help", false), ("ab_add", true),
          ("ab_delete", true), ("ab_list", true), ("bc_height", true),
          ("change_password", true), ("incoming_transfers", true), ("reset", true),
          ("save", true), ("status", true)] := rfl

/-- The ordering of the registry on the pairs of name and tier flag. -/
theorem keys_sorted_full :
    List.Pairwise (fun (a b : String × Bool) =>
        (a.2 = false ∧ b.2 = true) ∨ (a.2 = b.2 ∧ stringLess a.1 b.1 = true))
      [("address", false), ("advanced", false), ("balance", false), ("exit", false),
          ("export_keys", false), ("help", false), ("transfer", false), ("ab_add", true),
          ("ab_delete", true), ("ab_list", true), ("ab_send", true), ("bc_height", true),
          ("change_password", true), ("incoming_transfers", true), ("list_transfers", true),
          ("optimize", true), ("outgoing_transfers", true), ("reset", true), ("save", true),
          ("save_csv", true), ("status", true)] := by
  decide

theorem registry_sorted_full (ticker : String) :
    List.Pairwise (fun (a b : Command) =>
        (a.advanced = false ∧ b.advanced = true)
          ∨ (a.advanced = b.advanced ∧ stringLess a.name b.name = true))
      (allCommands ticker) := by
  have h := keys_sorted_full
  rw [← registry_keys_full ticker, List.pairwise_map] at h
  exact h

theorem registry_names_nodup (ticker : String) :
    ((allCommands ticker).map (fun c => c.name)).Nodup := by
  have h : (allCommands ticker).map (fun c => c.name)
      = ["address", "advanced", "balance", "exit", "export_keys", "help", "transfer", "ab_add",
          "ab_delete", "ab_list", "ab_send", "bc_height", "change_password",
          "incoming_transfers", "list_transfers", "optimize", "outgoing_transfers", "reset",
          "save", "save_csv", "status"] := rfl
  rw [h]
  decide

theorem registry_contains (ticker : String) {c : Command} (h : c ∈ commandTable ticker) :
    contains c.name (commandTable ticker) = some c := by
  simp only [commandTable, List.mem_cons, List.mem_singleton, List.not_mem_nil, or_false] at h
  rcases h with h | h | h | h | h | h | h | h | h | h | h | h | h | h | h | h | h | h | h | h | h <;>
    (subst h; rfl)

/-! ## What the routing chain does on registry names -/

theorem listCommandsLoop_head (advanced : Bool) : ∀ (commands : List Command) (index : Int),
    ∀ line ∈ listCommandsLoop advanced index commands, line.head? = some (.text " ") := by
  intro commands
  induction commands with
  | nil => intro index line h; simp [listCommandsLoop] at h
  | cons x xs ih =>
    intro index line h
    unfold listCommandsLoop at h
    split at h
    · rcases List.mem_cons.mp h with h | h
      · subst h
        rfl
      · exact ih _ line h
    · exact ih _ line h

theorem listCommands_head (commands : List Command) (advanced : Bool) :
    ∀ line ∈ listCommands commands advanced, line.head? = some (.text " ") :=
  listCommandsLoop_head advanced commands _

/-- On the name of a registry entry the routing chain either takes the "exit"
branch or takes one handler branch; what it writes is a listing or the wallet
address. -/
theorem registry_route (ticker : String) (walletInfo : WalletInfo) (available : List Command)
    {c : Command} (h : c ∈ commandTable ticker) :
    (c.name = "exit" ∧ routeCommand walletInfo available c.name = ⟨true, [], []⟩) ∨
    (∃ hd out, routeCommand walletInfo available c.name = ⟨false, out, [hd]⟩ ∧
      ∀ line ∈ out, line.head? = some (.text " ") ∨ line = [.successMsg walletInfo.walletAddress]) := by
  simp only [commandTable, List.mem_cons, List.mem_singleton, List.not_mem_nil, or_false] at h
  rcases h with h | h | h | h | h | h | h | h | h | h | h | h | h | h | h | h | h | h | h | h | h <;>
    subst h <;>
    first
    | exact Or.inl ⟨rfl, rfl⟩
    | exact Or.inr ⟨_, [], rfl, fun line hl => by cases hl⟩
    | exact Or.inr ⟨_, _, rfl, fun line hl => Or.inl (listCommands_head _ _ line hl)⟩
    | exact Or.inr ⟨_, [[.successMsg walletInfo.walletAddress]], rfl,
        fun line hl => Or.inr (List.mem_singleton.mp hl)⟩

/-! ## The listing loop on arbitrary lists -/

/-- While the running index stays within `int`, the loop of `listCommands`
writes the commands of the requested tier in list order, numbered consecutively
from the starting index. -/
theorem listCommandsLoop_eq (advanced : Bool) : ∀ (commands : List Command) (k : Nat),
    (k : Int) + (commands.countP (fun c => c.advanced = advanced) : Nat) ≤ INT_MAX →
    listCommandsLoop advanced (k : Int) commands
      = List.zipWith
          (fun (j : Nat) (c : Command) =>
            ([.text " ", .informationMsg (to_string (j : Int)), .text "\t",
              .successMsgPadded c.name 25, .text c.description] : Line))
          (List.range' k (commands.countP (fun c => c.advanced = advanced)))
          (commands.filter (fun c => c.advanced = advanced)) := by
  intro commands
  induction commands with
  | nil => intro k _; simp [listCommandsLoop]
  | cons x xs ih =>
    intro k hk
    unfold listCommandsLoop
    by_cases hx : x.advanced = advanced
    · have hp : (decide (x.advanced = advanced)) = true := by simpa using hx
      have hc : (x :: xs).countP (fun c => decide (c.advanced = advanced))
          = xs.countP (fun c => decide (c.advanced = advanced)) + 1 :=
        List.countP_cons_of_pos _ _ hp
      have hf : (x :: xs).filter (fun c => decide (c.advanced = advanced))
          = x :: xs.filter (fun c => decide (c.advanced = advanced)) :=
        List.filter_cons_of_pos hp
      rw [hc] at hk ⊢
      rw [if_pos hx, hf, List.range'_succ, List.zipWith_cons_cons]
      have hw : wrapInt32 ((k : Int) + 1) = ((k + 1 : Nat) : Int) := by
        rw [wrapInt32_of_range _ (by unfold INT_MIN; omega) (by push_cast at hk; omega)]
        push_cast
        rfl
      rw [hw, ih (k + 1) (by push_cast at hk ⊢; omega)]
    · have hp : ¬ (decide (x.advanced = advanced)) = true := by simpa using hx
      have hc : (x :: xs).countP (fun c => decide (c.advanced = advanced))
          = xs.countP (fun c => decide (c.advanced = advanced)) :=
        List.countP_cons_of_neg _ _ hp
      have hf : (x :: xs).filter (fun c => decide (c.advanced = advanced))
          = xs.filter (fun c => decide (c.advanced = advanced)) :=
        List.filter_cons_of_neg hp
      rw [hc] at hk ⊢
      rw [if_neg hx, hf, ih k hk]

/-- The loop of `listCommands` passes over commands of the other tier without
writing and without changing the running index. -/
theorem listCommandsLoop_skip (advanced : Bool) (b : Command) (hb : b.advanced ≠ advanced)
    (rest : List Command) (index : Int) : ∀ (n : Nat),
    listCommandsLoop advanced index (List.replicate n b ++ rest)
      = listCommandsLoop advanced index rest := by
  intro n
  induction n with
  | zero => rfl
  | succ n ih =>
    rw [List.replicate_succ, List.cons_append]
    have step : listCommandsLoop advanced index (b :: (List.replicate n b ++ rest))
        = listCommandsLoop advanced index (List.replicate n b ++ rest) := by
      conv_lhs => unfold listCommandsLoop
      rw [if_neg hb]
    rw [step, ih]

/-- The advanced listing of `n` basic commands followed by one advanced command
is one line, numbered with the narrowed count of basic commands plus one. -/
theorem listCommands_after_basics (b a : Command) (hb : b.advanced = false)
    (ha : a.advanced = true) (n : Nat) :
    (List.replicate n b ++ [a]).countP (fun c => !c.advanced) = n ∧
    listCommands (List.replicate n b ++ [a]) true
      = [[.text " ", .informationMsg (to_string (wrapInt32 (wrapInt32 (n : Int) + 1))), .text "\t",
          .successMsgPadded a.name 25, .text a.description]] := by
  have hcount : (List.replicate n b ++ [a]).countP (fun c => !c.advanced) = n := by
    rw [List.countP_append, List.countP_replicate]
    simp [hb, ha, List.countP_cons]
  refine ⟨hcount, ?_⟩
  unfold listCommands numBasicCommands
  rw [hcount]
  simp only [if_true]
  rw [listCommandsLoop_skip true b (by simp [hb]) [a] _ n]
  unfold listCommandsLoop
  rw [if_pos ha]
  rfl

/-! ## Claims on the registry, the listing and the index access -/

/-- C11. Availability filter identity law: for every command list `cs`,
`availableCommands(false, cs)` is `cs` itself, with the same elements in the
same order and the same length; in particular in a session that is not
view-only the available list is `allCommands()`. -/
theorem availability_identity (cs : List Command) (ticker : String) :
    availableCommands false cs = cs ∧
    (availableCommands false cs).length = cs.length ∧
    availableCommands false (allCommands ticker) = allCommands ticker :=
  ⟨availableCommands_full cs, congrArg List.length (availableCommands_full cs),
    availableCommands_full (allCommands ticker)⟩

/-- C12. View-only filter: for every command list `cs`,
`availableCommands(true, cs)` is the sub-sequence of `cs` made of exactly the
commands with `viewWalletSupport` true, in their original relative order, and
its length is the number of such commands in `cs`. -/
theorem view_only_filter (cs : List Command) :
    availableCommands true cs = cs.filter (fun c => c.viewWalletSupport) ∧
    (availableCommands true cs).Sublist cs ∧
    (∀ c, c ∈ availableCommands true cs ↔ c ∈ cs ∧ c.viewWalletSupport = true) ∧
    (∀ c, c.viewWalletSupport = true →
      (availableCommands true cs).count c = cs.count c) ∧
    (availableCommands true cs).length = cs.countP (fun c => c.viewWalletSupport) := by
  rw [availableCommands_view]
  refine ⟨rfl, List.filter_sublist cs, fun c => by simp [List.mem_filter], fun c hc => ?_,
    (List.countP_eq_length_filter _ cs).symm⟩
  rw [List.count_filter]
  simpa using hc

/-- C13. Registry ordering invariant: in the list returned by `allCommands()`
every basic command precedes every advanced command, and within a tier the
names are strictly ascending in the lexicographic order of `std::string`; the
view-only available list derived from it is ordered the same way. -/
theorem registry_ordering (ticker : String) :
    List.Pairwise (fun (a b : Command) =>
        (a.advanced = false ∧ b.advanced = true)
          ∨ (a.advanced = b.advanced ∧ stringLess a.name b.name = true))
      (allCommands ticker) ∧
    List.Pairwise (fun (a b : Command) =>
        (a.advanced = false ∧ b.advanced = true)
          ∨ (a.advanced = b.advanced ∧ stringLess a.name b.name = true))
      (availableCommands true (allCommands ticker)) := by
  refine ⟨registry_sorted_full ticker, ?_⟩
  rw [availableCommands_view]
  exact (registry_sorted_full ticker).sublist (List.filter_sublist _)

/-- C14. Registry names are unique: no two entries of `allCommands()` have the
same name, so an entry `c` of the registry is the only entry named `c.name`,
and `contains(c.name, allCommands())` returns it. -/
theorem registry_names_unique (ticker : String) (c : Command) (h : c ∈ allCommands ticker) :
    ((allCommands ticker).map (fun x => x.name)).Nodup ∧
    (∀ x ∈ allCommands ticker, x.name = c.name → x = c) ∧
    contains c.name (allCommands ticker) = some c := by
  refine ⟨registry_names_nodup ticker, fun x hx hname => ?_, registry_contains ticker h⟩
  exact List.inj_on_of_nodup_map (registry_names_nodup ticker) hx h hname

theorem registry_names_unique_witness :
    (⟨"save", "Save your wallet state", true, true⟩ : Command) ∈ allCommands "TRTL" ∧
    ((allCommands "TRTL").map (fun x => x.name)).Nodup ∧
    (∀ x ∈ allCommands "TRTL",
      x.name = (⟨"save", "Save your wallet state", true, true⟩ : Command).name →
        x = ⟨"save", "Save your wallet state", true, true⟩) ∧
    contains (⟨"save", "Save your wallet state", true, true⟩ : Command).name (allCommands "TRTL")
      = some ⟨"save", "Save your wallet state", true, true⟩ :=
  ⟨by decide, registry_names_unique "TRTL" ⟨"save", "Save your wallet state", true, true⟩
    (by decide)⟩

/-- C15, as stated, fails: the registry has 21 commands, not 20, of which 14 are
advanced, not 13, and the advanced listing reaches the index 21. -/
theorem registry_size_counterexample :
    (allCommands "TRTL").length ≠ 20 ∧
    (allCommands "TRTL").countP (fun c => c.advanced) ≠ 13 ∧
    ([.text " ", .informationMsg "21", .text "\t", .successMsgPadded "status" 25,
        .text "Show the daemon status"] : Line)
      ∈ listCommands (availableCommands false (allCommands "TRTL")) true := by
  decide

/-- C15, amended. In a full-mode session the registry returned by
`allCommands()` has 21 commands, 7 basic and 14 advanced; `listCommands` on the
basic tier prints exactly the indices 1 to 7, in that order, and on the
advanced tier exactly the indices 8 to 21. -/
theorem registry_size (ticker : String) :
    (allCommands ticker).length = 21 ∧
    (allCommands ticker).countP (fun c => !c.advanced) = 7 ∧
    (allCommands ticker).countP (fun c => c.advanced) = 14 ∧
    (listCommands (availableCommands false (allCommands ticker)) false).map
        (fun line => List.get? line 1)
      = (List.range' 1 7).map (fun k => some (Msg.informationMsg (to_string (k : Int)))) ∧
    (listCommands (availableCommands false (allCommands ticker)) true).map
        (fun line => List.get? line 1)
      = (List.range' 8 14).map (fun k => some (Msg.informationMsg (to_string (k : Int)))) := by
  refine ⟨rfl, rfl, rfl, rfl, ?_⟩
  have hstart :
      wrapInt32 (numBasicCommands (availableCommands false (allCommands ticker)) + 1) = 8 := by
    rw [registry_numBasic_full]
    decide
  simp only [listCommands, if_true, hstart]
  rfl

/-- C16. Every registered command is wired to exactly one handler: for every
command `c` of `allCommands()` and every session mode in which `c` passes the
permission gate, `dispatchCommand` on `c.name` returns after taking one branch
of the routing chain, either the "exit" branch (return true, no handler) or
exactly one handler branch (return false), and it never writes the "Command was
defined but not hooked up" fallback lines. -/
theorem every_command_wired (ticker : String) (walletInfo : WalletInfo) (c : Command)
    (h : c ∈ allCommands ticker)
    (hgate : ¬ (walletInfo.viewWallet = true ∧ c.viewWalletSupport = false)) :
    ∃ d, dispatchCommand ticker walletInfo c.name = .ok d ∧
      ((c.name = "exit" ∧ d.exit = true ∧ d.handlers = []) ∨
        (c.name ≠ "exit" ∧ d.exit = false ∧ ∃ hd, d.handlers = [hd])) ∧
      ∀ line ∈ d.output,
        line ≠ [.warningMsg "Command was defined but not hooked up: ", .informationMsg c.name] ∧
        line ≠ [.informationMsg "Please report this bug!"] := by
  rw [dispatchCommand_of_resolved (name_lookup_registry ticker walletInfo.viewWallet c h)]
  have hg : (walletInfo.viewWallet && !c.viewWalletSupport) = false := by
    cases hv : walletInfo.viewWallet with
    | false => rfl
    | true =>
      cases hs : c.viewWalletSupport with
      | false => exact absurd ⟨hv, hs⟩ hgate
      | true => rfl
  simp only [hg, List.nil_append]
  rcases registry_route ticker walletInfo
    (availableCommands walletInfo.viewWallet (allCommands ticker)) h with ⟨hn, hr⟩ | ⟨hd, out, hr, hout⟩
  · refine ⟨_, rfl, ?_, ?_⟩
    · rw [hr]
      exact Or.inl ⟨hn, rfl, rfl⟩
    · rw [hr]
      intro line hl
      cases hl
  · refine ⟨_, rfl, ?_, ?_⟩
    · rw [hr]
      refine Or.inr ⟨fun hn => ?_, rfl, hd, rfl⟩
      have he := (routeCommand_exit_iff walletInfo
        (availableCommands walletInfo.viewWallet (allCommands ticker)) c.name).mpr hn
      rw [hr] at he
      cases he
    · rw [hr]
      intro line hl
      rcases hout line hl with hh | hh
      · constructor <;> (intro heq; rw [heq] at hh; cases hh)
      · constructor <;> (intro heq; rw [heq] at hh; cases hh)

theorem every_command_wired_witness :
    (⟨"help", "List this help message", true, false⟩ : Command) ∈ allCommands "TRTL" ∧
    ¬ ((WalletInfo.mk true "TRTLaddr").viewWallet = true ∧
      (⟨"help", "List this help message", true, false⟩ : Command).viewWalletSupport = false) ∧
    ∃ d, dispatchCommand "TRTL" ⟨true, "TRTLaddr"⟩
        (⟨"help", "List this help message", true, false⟩ : Command).name = .ok d ∧
      (((⟨"help", "List this help message", true, false⟩ : Command).name = "exit" ∧
          d.exit = true ∧ d.handlers = []) ∨
        ((⟨"help", "List this help message", true, false⟩ : Command).name ≠ "exit" ∧
          d.exit = false ∧ ∃ hd, d.handlers = [hd])) ∧
      ∀ line ∈ d.output,
        line ≠ [.warningMsg "Command was defined but not hooked up: ",
          .informationMsg (⟨"help", "List this help message", true, false⟩ : Command).name] ∧
        line ≠ [.informationMsg "Please report this bug!"] :=
  ⟨by decide, by decide,
    every_command_wired "TRTL" ⟨true, "TRTLaddr"⟩ ⟨"help", "List this help message", true, false⟩
      (by decide) (by decide)⟩

/-- C17, as stated, fails for a list whose number of basic commands does not fit
an `int`: after 2147483648 basic commands `numBasicCommands` returns the
narrowed count, and the advanced command that follows is listed with the index
-2147483647 instead of 2147483649. -/
theorem listing_indices_counterexample :
    (List.replicate 2147483648 (Command.mk "help" "" true false)
      ++ [Command.mk "save" "" true true]).countP (fun c => !c.advanced) = 2147483648 ∧
    listCommands (List.replicate 2147483648 (Command.mk "help" "" true false)
      ++ [Command.mk "save" "" true true]) true
      = [[.text " ", .informationMsg "-2147483647", .text "\t", .successMsgPadded "save" 25,
          .text ""]] ∧
    to_string (2147483648 + 1) ≠ "-2147483647" := by
  have h := listCommands_after_basics ⟨"help", "", true, false⟩ ⟨"save", "", true, true⟩ rfl rfl
    2147483648
  have hw : wrapInt32 (wrapInt32 ((2147483648 : Nat) : Int) + 1) = -2147483647 := by decide
  rw [hw] at h
  exact ⟨h.1, h.2, by decide⟩

/-- C17, amended. For every command list `cs` with fewer than `INT_MAX` entries
(no ordering assumed), with `b` the number of entries having `advanced` false,
`listCommands(cs, false)` prints the basic entries in list order with the
consecutive indices 1, 2, ..., b, and `listCommands(cs, true)` prints the
advanced entries in list order with the consecutive indices b+1, ..., len(cs);
entries of the other tier are skipped and consume no index. -/
theorem listing_indices (cs : List Command) (h : (cs.length : Int) < INT_MAX) :
    listCommands cs false
      = List.zipWith
          (fun (k : Nat) (c : Command) =>
            ([.text " ", .informationMsg (to_string (k : Int)), .text "\t",
              .successMsgPadded c.name 25, .text c.description] : Line))
          (List.range' 1 (cs.countP (fun c => !c.advanced)))
          (cs.filter (fun c => !c.advanced)) ∧
    listCommands cs true
      = List.zipWith
          (fun (k : Nat) (c : Command) =>
            ([.text " ", .informationMsg (to_string (k : Int)), .text "\t",
              .successMsgPadded c.name 25, .text c.description] : Line))
          (List.range' (cs.countP (fun c => !c.advanced) + 1)
            (cs.length - cs.countP (fun c => !c.advanced)))
          (cs.filter (fun c => c.advanced)) := by
  have hbasic : (fun c : Command => decide (c.advanced = false)) = (fun c => !c.advanced) := by
    funext c
    cases c.advanced <;> rfl
  have hadv : (fun c : Command => decide (c.advanced = true)) = (fun c => c.advanced) := by
    funext c
    cases c.advanced <;> rfl
  have hsplit : cs.length
      = cs.countP (fun c => !c.advanced) + cs.countP (fun c => c.advanced) := by
    have := List.length_eq_countP_add_countP (p := fun c : Command => !c.advanced) cs
    simpa using this
  have hmax : INT_MAX = 2147483647 := rfl
  constructor
  · have := listCommandsLoop_eq false cs 1 (by rw [hbasic]; push_cast; omega)
    rw [hbasic] at this
    exact this
  · have hn : numBasicCommands cs = ((cs.countP (fun c => !c.advanced) : Nat) : Int) :=
      wrapInt32_of_range _ (by unfold INT_MIN; omega) (by omega)
    have hstart : wrapInt32 (numBasicCommands cs + 1)
        = ((cs.countP (fun c => !c.advanced) + 1 : Nat) : Int) := by
      rw [hn, wrapInt32_of_range _ (by unfold INT_MIN; omega) (by omega)]
      push_cast
      rfl
    have := listCommandsLoop_eq true cs (cs.countP (fun c => !c.advanced) + 1)
      (by rw [hadv]; push_cast; omega)
    rw [hadv] at this
    have hcnt : cs.countP (fun c => c.advanced) = cs.length - cs.countP (fun c => !c.advanced) := by
      omega
    rw [hcnt] at this
    simp only [listCommands, if_true, hstart]
    exact this

theorem listing_indices_witness :
    (([⟨"zed", "z", true, true⟩, ⟨"help", "h", true, false⟩, ⟨"abc", "a", false, true⟩]
        : List Command).length : Int) < INT_MAX ∧
    listCommands [⟨"zed", "z", true, true⟩, ⟨"help", "h", true, false⟩, ⟨"abc", "a", false, true⟩]
        false
      = List.zipWith
          (fun (k : Nat) (c : Command) =>
            ([.text " ", .informationMsg (to_string (k : Int)), .text "\t",
              .successMsgPadded c.name 25, .text c.description] : Line))
          (List.range' 1 (([⟨"zed", "z", true, true⟩, ⟨"help", "h", true, false⟩,
            ⟨"abc", "a", false, true⟩] : List Command).countP (fun c => !c.advanced)))
          (([⟨"zed", "z", true, true⟩, ⟨"help", "h", true, false⟩,
            ⟨"abc", "a", false, true⟩] : List Command).filter (fun c => !c.advanced)) ∧
    listCommands [⟨"zed", "z", true, true⟩, ⟨"help", "h", true, false⟩, ⟨"abc", "a", false, true⟩]
        true
      = List.zipWith
          (fun (k : Nat) (c : Command) =>
            ([.text " ", .informationMsg (to_string (k : Int)), .text "\t",
              .successMsgPadded c.name 25, .text c.description] : Line))
          (List.range' (([⟨"zed", "z", true, true⟩, ⟨"help", "h", true, false⟩,
            ⟨"abc", "a", false, true⟩] : List Command).countP (fun c => !c.advanced) + 1)
            (([⟨"zed", "z", true, true⟩, ⟨"help", "h", true, false⟩,
              ⟨"abc", "a", false, true⟩] : List Command).length
              - ([⟨"zed", "z", true, true⟩, ⟨"help", "h", true, false⟩,
                ⟨"abc", "a", false, true⟩] : List Command).countP (fun c => !c.advanced)))
          (([⟨"zed", "z", true, true⟩, ⟨"help", "h", true, false⟩,
            ⟨"abc", "a", false, true⟩] : List Command).filter (fun c => c.advanced)) :=
  ⟨by decide,
    listing_indices
      [⟨"zed", "z", true, true⟩, ⟨"help", "h", true, false⟩, ⟨"abc", "a", false, true⟩]
      (by decide)⟩

/-- C18. In a view-only session numeric input can never select a forbidden
command: for every token that `std::stoi` parses to an integer,
`dispatchCommand` with `viewWallet` true returns, and either it fails with the
out-of-range line, or the token resolved to a command with `viewWalletSupport`
true; in both cases the "not available in a view only wallet" line is not
written. -/
theorem numeric_never_forbidden (ticker : String) (walletInfo : WalletInfo) (command : String)
    (k : Int) (hview : walletInfo.viewWallet = true) (h : stoi command = .ok k) :
    ∃ d, dispatchCommand ticker walletInfo command = .ok d ∧
      (d = ⟨false, [[.warningMsg "Bad input: Expected a command name, or number from ",
            .informationMsg "1", .warningMsg " to ", .informationMsg "15"]], []⟩ ∨
        ∃ c, resolveCommand command (allCommands ticker)
            (availableCommands true (allCommands ticker)) = .ok (some c, []) ∧
          c.viewWalletSupport = true) ∧
      [Msg.warningMsg "This command is not available in a view only wallet..."] ∉ d.output := by
  obtain ⟨vw, addr⟩ := walletInfo
  simp only at hview
  subst hview
  have hl : (availableCommands true (allCommands ticker)).length = 15 := rfl
  have hbad : badInputLine (availableCommands true (allCommands ticker))
      = [.warningMsg "Bad input: Expected a command name, or number from ",
          .informationMsg "1", .warningMsg " to ", .informationMsg "15"] := by
    unfold badInputLine
    rw [hl]
    rfl
  by_cases hk : k < 1 ∨ ((availableCommands true (allCommands ticker)).length : Int) < k
  · have hr := resolveCommand_bad_index (allCommands ticker)
      (availableCommands true (allCommands ticker)) h hk
    rw [hbad] at hr
    rw [@dispatchCommand_of_resolved ticker ⟨true, addr⟩ command _ hr]
    exact ⟨_, rfl, Or.inl rfl, by simp⟩
  · have hlt : (k - 1).toNat < (availableCommands true (allCommands ticker)).length := by omega
    obtain ⟨c, hget⟩ : ∃ c, (availableCommands true (allCommands ticker))[(k - 1).toNat]? = some c :=
      ⟨_, List.getElem?_eq_getElem hlt⟩
    have hmem : c ∈ availableCommands true (allCommands ticker) := List.getElem?_mem hget
    have hsup : c.viewWalletSupport = true := (List.mem_filter.mp hmem).2
    have htab : c ∈ commandTable ticker := (List.mem_filter.mp hmem).1
    have hr : resolveCommand command (allCommands ticker)
        (availableCommands true (allCommands ticker)) = .ok (some c, []) := by
      rw [resolveCommand_index (allCommands ticker) _ h (by omega) (by omega)
        (registry_available_length ticker true) hget]
      exact congrArg Except.ok (registry_lookup ticker htab)
    rw [@dispatchCommand_of_resolved ticker ⟨true, addr⟩ command _ hr]
    have hg : ((WalletInfo.mk true addr).viewWallet && !c.viewWalletSupport) = false := by
      rw [hsup]
      rfl
    simp only [hg, List.nil_append]
    refine ⟨_, rfl, Or.inr ⟨_, hr, hsup⟩, ?_⟩
    rcases registry_route ticker ⟨true, addr⟩ (availableCommands true (allCommands ticker)) htab
      with ⟨_, hrt⟩ | ⟨hd, out, hrt, hout⟩
    · rw [hrt]
      simp
    · rw [hrt]
      intro hin
      rcases hout _ hin with hh | hh
      · cases hh
      · cases hh

theorem numeric_never_forbidden_witness :
    (WalletInfo.mk true "TRTLaddr").viewWallet = true ∧ stoi "7" = .ok 7 ∧
    ∃ d, dispatchCommand "TRTL" ⟨true, "TRTLaddr"⟩ "7" = .ok d ∧
      (d = ⟨false, [[.warningMsg "Bad input: Expected a command name, or number from ",
            .informationMsg "1", .warningMsg " to ", .informationMsg "15"]], []⟩ ∨
        ∃ c, resolveCommand "7" (allCommands "TRTL")
            (availableCommands true (allCommands "TRTL")) = .ok (some c, []) ∧
          c.viewWalletSupport = true) ∧
      [Msg.warningMsg "This command is not available in a view only wallet..."] ∉ d.output :=
  ⟨rfl, rfl, numeric_never_forbidden "TRTL" ⟨true, "TRTLaddr"⟩ "7" 7 rfl rfl⟩

/-- C19. The index access in `resolveCommand` is always in bounds: for every
available list, the empty one included, and every token that `std::stoi`
parses to an `int` `n`, either the token is rejected with the out-of-range line
and nothing is read, or `0 <= n-1 < len(available)` and `available[n-1]` is the
element read; no read outside the list happens. Every `n <= 0` is rejected,
`INT_MIN` included, where the decrement wraps to `INT_MAX`. -/
theorem index_access_in_bounds (all available : List Command) (command : String) (n : Int)
    (h : stoi command = .ok n) :
    (resolveCommand command all available = .ok (none, [badInputLine available]) ∨
      (0 ≤ n - 1 ∧ n - 1 < (available.length : Int) ∧
        ∃ c, available[(n - 1).toNat]? = some c ∧
          resolveCommand command all available = .ok (lookupCommand c.name all))) ∧
    (∀ i, resolveCommand command all available ≠ .error (.outOfBoundsRead i)) ∧
    (n ≤ 0 → resolveCommand command all available = .ok (none, [badInputLine available])) ∧
    wrapInt32 (INT_MIN - 1) = INT_MAX := by
  obtain ⟨hlo, hhi⟩ := stoi_range command n h
  have hmain : resolveCommand command all available = .ok (none, [badInputLine available]) ∨
      (0 ≤ n - 1 ∧ n - 1 < (available.length : Int) ∧
        ∃ c, available[(n - 1).toNat]? = some c ∧
          resolveCommand command all available = .ok (lookupCommand c.name all)) := by
    by_cases hg : wrapInt32 (n - 1) < 0 ∨ wrapInt32 (n - 1) ≥ wrapInt32 (available.length : Int)
    · left
      simp only [resolveCommand, h]
      rw [if_pos (by simpa using hg)]
    · right
      have hb : 0 ≤ n - 1 ∧ n - 1 < (available.length : Int) ∧ wrapInt32 (n - 1) = n - 1 := by
        unfold wrapInt32 at hg ⊢
        unfold INT_MIN at hlo
        unfold INT_MAX at hhi
        omega
      have hlt : (n - 1).toNat < available.length := by omega
      refine ⟨hb.1, hb.2.1, available[(n - 1).toNat], List.getElem?_eq_getElem hlt, ?_⟩
      simp only [resolveCommand, h]
      rw [if_neg (by simpa using hg), hb.2.2, List.getElem?_eq_getElem hlt]
  refine ⟨hmain, fun i hi => ?_, fun hn => resolveCommand_bad_index all available h (Or.inl (by omega)),
    by decide⟩
  rcases hmain with hm | ⟨_, _, c, _, hm⟩ <;> rw [hm] at hi <;> cases hi

theorem index_access_in_bounds_witness :
    stoi "-2147483648" = .ok (-2147483648) ∧
    ((resolveCommand "-2147483648" (allCommands "TRTL") [] = .ok (none, [badInputLine []]) ∨
      (0 ≤ (-2147483648 : Int) - 1 ∧ (-2147483648 : Int) - 1 < (([] : List Command).length : Int) ∧
        ∃ c, ([] : List Command)[((-2147483648 : Int) - 1).toNat]? = some c ∧
          resolveCommand "-2147483648" (allCommands "TRTL") []
            = .ok (lookupCommand c.name (allCommands "TRTL")))) ∧
    (∀ i, resolveCommand "-2147483648" (allCommands "TRTL") [] ≠ .error (.outOfBoundsRead i)) ∧
    ((-2147483648 : Int) ≤ 0 →
      resolveCommand "-2147483648" (allCommands "TRTL") [] = .ok (none, [badInputLine []])) ∧
    wrapInt32 (INT_MIN - 1) = INT_MAX) :=
  ⟨rfl, index_access_in_bounds (allCommands "TRTL") [] "-2147483648" (-2147483648) rfl⟩

end ZedWallet
